import Mathlib

/-!
Verification of the AVL tree library (`AVLTree.h`, `AVLUtils.h`).

The C++ tree is embedded shallowly: a node is `Tree.node l k h r` where `h`
is the *stored* `height` field (the C++ `Node::height`); `Tree.nil` is a null
child pointer.  The comparator `m_comp` is the strict order of a
`LinearOrder`.  The destructive pointer operations of the source become pure
functions: the upward `Rebalance` walk from a node to the root is realised by
applying the per-node rebalancing step (`rebalanceNode`) at every level on
the way out of the recursion that descended to that node, which visits
exactly the same nodes in the same bottom-up order and performs the same
local transformation.
-/

namespace AVLSpec

inductive Tree (α : Type) where
  | nil : Tree α
  | node (l : Tree α) (k : α) (h : Nat) (r : Tree α) : Tree α
deriving Repr, DecidableEq

namespace Tree

variable {α : Type} [LinearOrder α]

/-- The stored height field: `p ? p->height : 0` (a null child contributes 0). -/
def ht : Tree α → Nat
  | nil => 0
  | node _ _ h _ => h

/-- `Node::UpdateNodeState`: `height = 1 + max(lh, rh)` with 0 for an absent
child, reading the children's stored heights. -/
def mkNode (l : Tree α) (k : α) (r : Tree α) : Tree α :=
  node l k (1 + max (ht l) (ht r)) r

/-- `AVLTree::DoRotations` with `ic = 0` (the left child is the taller one),
composed of the `RotateOnce` calls and the `UpdateNodeState` calls the source
performs: a double rotation when the inner grandchild is strictly taller
(`hD < hE`), otherwise a single rotation.  The source dereferences
`p->children[0]` unguarded; that branch (and a null inner grandchild in the
double case) is unreachable because the caller checked `ht l > ht r + 1 ≥ 1`,
and `ht nil = 0`. -/
def doRotations0 : Tree α → Tree α
  | node (node ll lk lh lr) k h r =>
    if ht ll < ht lr then
      match lr with
      | node lrl lrk _ lrr => mkNode (mkNode ll lk lrl) lrk (mkNode lrr k r)
      | nil => node (node ll lk lh lr) k h r
    else
      mkNode ll lk (mkNode lr k r)
  | t => t

/-- `AVLTree::DoRotations` with `ic = 1` (the right child is the taller one). -/
def doRotations1 : Tree α → Tree α
  | node l k h (node rl rk rh rr) =>
    if ht rr < ht rl then
      match rl with
      | node rll rlk _ rlr => mkNode (mkNode l k rll) rlk (mkNode rlr rk rr)
      | nil => node l k h (node rl rk rh rr)
    else
      mkNode (mkNode l k rl) rk rr
  | t => t

/-- The body of `AVLTree::Rebalance` for one visited node: read the children's
stored heights, rotate if they differ by two, otherwise just
`UpdateNodeState`.  (In the source both `i = 0` and `i = 1` are tested with
the heights read before any rotation; at most one test can succeed.)  The
recursion `Rebalance(p->parent)` is realised by the callers, which apply this
step at every ancestor on the way back up. -/
def rebalanceNode : Tree α → Tree α
  | nil => nil
  | node l k h r =>
    if ht l > ht r + 1 then doRotations0 (node l k h r)
    else if ht r > ht l + 1 then doRotations1 (node l k h r)
    else mkNode l k r

/-- `AVLTree::Add` below the root: `Find` descends while the relevant child
exists; at the stop node a fresh leaf (`new Node(v)`, height 1) is attached
and the stop node gets `UpdateNodeState` (no rotation check there), after
which `Rebalance(where->parent)` applies the rebalancing step at every strict
ancestor.  `none` signals "value already present" (no mutation). -/
def addGo : Tree α → α → Option (Tree α)
  | nil, _ => none
  | node l k h r, v =>
    if v < k then
      match l with
      | nil => some (mkNode (node nil v 1 nil) k r)
      | node a b c d => (addGo (node a b c d) v).map fun l' => rebalanceNode (node l' k h r)
    else if k < v then
      match r with
      | nil => some (mkNode l k (node nil v 1 nil))
      | node a b c d => (addGo (node a b c d) v).map fun r' => rebalanceNode (node l k h r')
    else none

/-- `AVLTree::Add`: empty tree installs a single-node root; otherwise insert
via the search path, reporting whether a node was inserted. -/
def add (t : Tree α) (v : α) : Tree α × Bool :=
  match t with
  | nil => (node nil v 1 nil, true)
  | node l k h r =>
    match addGo (node l k h r) v with
    | none => (node l k h r, false)
    | some t' => (t', true)

/-- Removal of the leftmost node of `node l k h r` (the in-order successor
search plus detachment of `AVLTree::Delete`): when the left child is absent
the node itself is the leftmost and is replaced by its right child; otherwise
the leftmost is removed from the left child and the rebalancing step runs at
this node (the walk `Rebalance(nextParent)` visits exactly the nodes on the
descent path, bottom-up).  Returns the removed key and the remaining tree. -/
def delMinGo (l : Tree α) (k : α) (h : Nat) (r : Tree α) : α × Tree α :=
  match l with
  | nil => (k, r)
  | node a b c d =>
    let p := delMinGo a b c d
    (p.1, rebalanceNode (node p.2 k h r))

/-- `AVLTree::Delete`: descend by comparison; `none` when no node holds the
key.  At the node holding the key: with no right child the left child is
spliced in (`DeleteNoRightChild`, rebalancing starts at the parent); with a
right child the in-order successor is detached and installed in the node's
place (`DeleteNextIsImmediateChild` / `DeleteNextNotImmediateChild`), and the
rebalancing walk runs from the detachment point through the installed node to
the root. -/
def delGo : Tree α → α → Option (Tree α)
  | nil, _ => none
  | node l k h r, v =>
    if v < k then (delGo l v).map fun l' => rebalanceNode (node l' k h r)
    else if k < v then (delGo r v).map fun r' => rebalanceNode (node l k h r')
    else some
      (match r with
       | nil => l
       | node a b c d =>
         let p := delMinGo a b c d
         rebalanceNode (node l p.1 h p.2))

/-- `AVLTree::Delete` wrapper: reports whether a node was removed. -/
def delete (t : Tree α) (v : α) : Tree α × Bool :=
  match delGo t v with
  | none => (t, false)
  | some t' => (t', true)

/-- `AVLTree::ExtractMax` on a non-empty tree `node l k h r`: descend the
right spine; the maximum is replaced by its left child and
`Rebalance(parent)` reruns the rebalancing step on every node of the spine
above it.  Returns the remaining tree and the extracted key. -/
def extractMaxGo (l : Tree α) (k : α) (h : Nat) (r : Tree α) : Tree α × α :=
  match r with
  | nil => (l, k)
  | node a b c d =>
    let p := extractMaxGo a b c d
    (rebalanceNode (node l k h p.1), p.2)

/-- `AVLTree::MergeWithRoot`, case `h1 > h2` (`dir = 1`): descend the right
spine of the taller left tree until the right child's stored height is
`hMin` or `hMin + 1`, splice `mkNode foundSubtree k hang` there
(`SetRootAndTwoSubtrees`), then `Rebalance(p)` applies the rebalancing step
on the spine bottom-up.  The `nil` case is unreachable under the AVL
invariant (the source dereferences the pointer unconditionally). -/
def mergeDescendR (t : Tree α) (k : α) (hang : Tree α) (hMin : Nat) : Tree α :=
  match t with
  | nil => mkNode nil k hang
  | node l k0 h r =>
    if ht r = hMin + 1 ∨ ht r = hMin then
      rebalanceNode (node l k0 h (mkNode r k hang))
    else
      rebalanceNode (node l k0 h (mergeDescendR r k hang hMin))

/-- `AVLTree::MergeWithRoot`, case `h1 < h2` (`dir = 0`): mirror image,
descending the left spine of the taller right tree. -/
def mergeDescendL (t : Tree α) (k : α) (hang : Tree α) (hMin : Nat) : Tree α :=
  match t with
  | nil => mkNode hang k nil
  | node l k0 h r =>
    if ht l = hMin + 1 ∨ ht l = hMin then
      rebalanceNode (node (mkNode hang k l) k0 h r)
    else
      rebalanceNode (node (mergeDescendL l k hang hMin) k0 h r)

/-- `AVLTree::MergeWithRoot`: `root` is a bare node (only its key matters —
its stored state is recomputed before it is read); if the two heights differ
by at most one the root joins them directly, otherwise the shorter tree is
hung inside the taller one.  (The final `m_root.swap` for `h1 < h2` only
decides which `AVLTree` object owns the result.) -/
def mergeWithRoot (lt : Tree α) (k : α) (rt : Tree α) : Tree α :=
  if ht lt + 1 ≥ ht rt ∧ ht lt ≤ ht rt + 1 then mkNode lt k rt
  else if ht lt > ht rt then mergeDescendR lt k rt (ht rt)
  else mergeDescendL rt k lt (ht lt)

/-- `AVLTree::MergeWith`: an empty receiver just swaps roots with the
argument; otherwise the receiver's maximum is extracted and used as the pivot
of `MergeWithRoot`. -/
def mergeWith (t1 t2 : Tree α) : Tree α :=
  match t1 with
  | nil => t2
  | node l k h r =>
    let p := extractMaxGo l k h r
    mergeWithRoot p.1 p.2 t2

/-- `AVLTree::MergeWith` with both trees' final states: every branch of the
source moves the argument tree's root out (directly, via `treeToHang`, or via
the final `Swap`), leaving the argument empty. -/
def mergeWithPair (t1 t2 : Tree α) : Tree α × Tree α :=
  (mergeWith t1 t2, nil)

/-- In-order traversal (`VisitInOrder`): left subtree, own key, right subtree. -/
def inorder : Tree α → List α
  | nil => []
  | node l k _ r => inorder l ++ k :: inorder r

/-- A node handle for a live member node, as the list of child directions
(`false` = `children[0]`, `true` = `children[1]`) from the root to the node. -/
def isValidPath : Tree α → List Bool → Bool
  | nil, _ => false
  | node _ _ _ _, [] => true
  | node l _ _ r, d :: ds => isValidPath (if d then r else l) ds

/-- The key held by the node a handle designates (`none` for a dangling
handle). -/
def pathKey : Tree α → List Bool → Option α
  | nil, _ => none
  | node _ k _ _, [] => some k
  | node l _ _ r, d :: ds => pathKey (if d then r else l) ds

/-- The splitting walk of `AVLTree::Split`: `PrepareInitialSplittingState`
takes the designated node's two subtrees as the initial accumulators and
folds the node's own key into the left one (`keyGoesLeft`) or the right one;
then `DoOneSplittingStep` runs once per ancestor, bottom-up: an ancestor
whose removed child was its left child is joined (as pivot) with its right
subtree into the right accumulator, and symmetrically.  Returns
(left accumulator, right accumulator). -/
def splitGo : Tree α → List Bool → Bool → Tree α × Tree α
  | nil, _, _ => (nil, nil)
  | node l k _ r, [], g =>
    if g then (mergeWith l (node nil k 1 nil), r)
    else (l, mergeWith (node nil k 1 nil) r)
  | node l k _ r, d :: ds, g =>
    if d then
      let p := splitGo r ds g
      (mergeWithRoot l k p.1, p.2)
    else
      let p := splitGo l ds g
      (p.1, mergeWithRoot p.2 k r)

/-- `AVLTree::Split` entry point: an empty tree returns an empty tree at once
(before the handle is examined); a null handle on a non-empty tree throws
`std::invalid_argument`; otherwise the tree is split around the designated
node.  The result is (tree left in `this`, returned tree). -/
def split (t : Tree α) (p : Option (List Bool)) (g : Bool) :
    Except String (Tree α × Tree α) :=
  match t with
  | nil => .ok (nil, nil)
  | node l k h r =>
    match p with
    | none => .error "Split: the p argument must be non-null"
    | some path => .ok (splitGo (node l k h r) path g)

/-- `TreeSizeNodeBaseType`: `treeSize = 1 + (left ? left.treeSize : 0) +
(right ? right.treeSize : 0)`, maintained bottom-up at every structurally
changed node, hence always the exact subtree size. -/
def size : Tree α → Nat
  | nil => 0
  | node l _ _ r => 1 + size l + size r

/-- `GetNthSmallestImpl`: out-of-range (a throw, modelled as `none`) when the
node is absent or `i ≥ p->GetSize()`; otherwise descend by the left subtree's
size. -/
def getNthSmallest : Tree α → Nat → Option α
  | nil, _ => none
  | node l k h r, i =>
    if i ≥ size (node l k h r) then none
    else
      let ls := size l
      if i < ls then getNthSmallest l i
      else if i = ls then some k
      else getNthSmallest r (i - ls - 1)

/-- The value the stored `sum` field of `SumNodeBaseType` holds, as the
source text writes it: `sum = v; if (p1) sum += p1->key; if (p2) sum +=
p2->key;` — the node's own key plus the *keys* of its immediate children
(`SumNodeBaseType` in fact has no member named `key`, so this line does not
even compile when instantiated; this definition reads the slip as accessing
the derived node's key).  The stored field always agrees with this shape
function because `UpdateNodeState` runs bottom-up at every node whose
children change and keys are immutable. -/
def sumField : Tree Int → Int
  | nil => 0
  | node l k _ r =>
    k + (match l with | nil => 0 | node _ lk _ _ => lk)
      + (match r with | nil => 0 | node _ rk _ _ => rk)

/-- `GetRangeSumImpl` with comparator `<` on `Int`.  `min`/`max` are
`std::min(a, b, comp)` / `std::max(a, b, comp)`, which agree with the
lattice operations of the linear order.  The whole-subtree shortcut returns
the stored `p->sum` field. -/
def getRangeSumImpl :
    Tree Int → Bool → Int → Bool → Int → Int → Int → Int
  | nil, _, _, _, _, _, _ => 0
  | node cl k hh cr, knowMin, minV, knowMax, maxV, l, h =>
    if knowMin ∧ knowMax ∧ ¬(minV < l) ∧ ¬(h < maxV) then
      sumField (node cl k hh cr)
    else
      (if ¬(k < l) ∧ ¬(h < k) then k else 0)
      + (if (¬(knowMin = true) ∧ l < k) ∨ ¬(min k h < max minV l) then
          getRangeSumImpl cl knowMin minV true k l h
        else 0)
      + (if (¬(knowMax = true) ∧ k < h) ∨ ¬(min maxV h < max k l) then
          getRangeSumImpl cr true k knowMax maxV l h
        else 0)

/-- `GetRangeSum`: start from the root with neither bound known, the tracked
min/max seeded with the query bounds. -/
def getRangeSum (t : Tree Int) (lb ub : Int) : Int :=
  getRangeSumImpl t false lb false ub lb ub

/-- The sum the spec ascribes to the augmentation: the total of the keys of
the subtree (`key + left-sum-or-0 + right-sum-or-0`). -/
def subtreeSum : Tree Int → Int
  | nil => 0
  | node l k _ r => k + subtreeSum l + subtreeSum r

/-! ## The invariants -/

/-- The AVL structural invariant, exactly as the data model states it: at
every node the stored height field equals `1 + max` of the children's stored
heights, and the children's stored heights differ by at most one. -/
def Avl : Tree α → Prop
  | nil => True
  | node l _ h r =>
    h = 1 + max (ht l) (ht r) ∧ ht l ≤ ht r + 1 ∧ ht r ≤ ht l + 1 ∧ Avl l ∧ Avl r

instance Avl.instDecidable : (t : Tree α) → Decidable (Avl t)
  | nil => isTrue trivial
  | node l k h r =>
    have : Decidable (Avl l) := Avl.instDecidable l
    have : Decidable (Avl r) := Avl.instDecidable r
    decidable_of_iff
      (h = 1 + max (ht l) (ht r) ∧ ht l ≤ ht r + 1 ∧ ht r ≤ ht l + 1 ∧ Avl l ∧ Avl r)
      Iff.rfl

/-- The ordering invariant: an in-order traversal yields the keys in strictly
ascending comparator order. -/
def Ordered (t : Tree α) : Prop := List.Sorted (· < ·) (inorder t)

instance Ordered.instDecidable (t : Tree α) : Decidable (Ordered t) :=
  inferInstanceAs (Decidable (List.Sorted (· < ·) (inorder t)))

/-! ## Basic lemmas -/

@[simp] theorem ht_nil : ht (nil : Tree α) = 0 := rfl

@[simp] theorem ht_node (l : Tree α) (k : α) (h : Nat) (r : Tree α) :
    ht (node l k h r) = h := rfl

@[simp] theorem ht_mkNode (l : Tree α) (k : α) (r : Tree α) :
    ht (mkNode l k r) = 1 + max (ht l) (ht r) := rfl

@[simp] theorem inorder_nil : inorder (nil : Tree α) = [] := rfl

@[simp] theorem inorder_node (l : Tree α) (k : α) (h : Nat) (r : Tree α) :
    inorder (node l k h r) = inorder l ++ k :: inorder r := rfl

@[simp] theorem inorder_mkNode (l : Tree α) (k : α) (r : Tree α) :
    inorder (mkNode l k r) = inorder l ++ k :: inorder r := rfl

theorem avl_node_iff {l : Tree α} {k : α} {h : Nat} {r : Tree α} :
    Avl (node l k h r) ↔
      h = 1 + max (ht l) (ht r) ∧ ht l ≤ ht r + 1 ∧ ht r ≤ ht l + 1 ∧ Avl l ∧ Avl r :=
  Iff.rfl

@[simp] theorem avl_nil : Avl (nil : Tree α) := trivial

theorem avl_mkNode_iff {l : Tree α} {k : α} {r : Tree α} :
    Avl (mkNode l k r) ↔ ht l ≤ ht r + 1 ∧ ht r ≤ ht l + 1 ∧ Avl l ∧ Avl r := by
  simp [mkNode, avl_node_iff]

theorem exists_node_of_ht_pos {t : Tree α} (h : 0 < ht t) :
    ∃ a b c d, t = node a b c d := by
  cases t with
  | nil => simp at h
  | node a b c d => exact ⟨a, b, c, d, rfl⟩

/-! ## Rebalancing -/

theorem doRotations0_node (ll : Tree α) (lk : α) (lh : Nat) (lr : Tree α)
    (k : α) (h : Nat) (r : Tree α) :
    doRotations0 (node (node ll lk lh lr) k h r) =
      if ht ll < ht lr then
        match lr with
        | node lrl lrk _ lrr => mkNode (mkNode ll lk lrl) lrk (mkNode lrr k r)
        | nil => node (node ll lk lh lr) k h r
      else mkNode ll lk (mkNode lr k r) := rfl

theorem doRotations1_node (l : Tree α) (k : α) (h : Nat)
    (rl : Tree α) (rk : α) (rh : Nat) (rr : Tree α) :
    doRotations1 (node l k h (node rl rk rh rr)) =
      if ht rr < ht rl then
        match rl with
        | node rll rlk _ rlr => mkNode (mkNode l k rll) rlk (mkNode rlr rk rr)
        | nil => node l k h (node rl rk rh rr)
      else mkNode (mkNode l k rl) rk rr := rfl

theorem rebalanceNode_node (l : Tree α) (k : α) (h : Nat) (r : Tree α) :
    rebalanceNode (node l k h r) =
      if ht l > ht r + 1 then doRotations0 (node l k h r)
      else if ht r > ht l + 1 then doRotations1 (node l k h r)
      else mkNode l k r := rfl

/-- Rotations (and the trivial rebalancing step) never change the in-order
key sequence. -/
theorem rebalanceNode_inorder (l : Tree α) (k : α) (h : Nat) (r : Tree α) :
    inorder (rebalanceNode (node l k h r)) = inorder l ++ k :: inorder r := by
  rw [rebalanceNode_node]
  by_cases c0 : ht l > ht r + 1
  · rw [if_pos c0]
    obtain ⟨ll, lk, lh, lr, rfl⟩ : ∃ a b c d, l = node a b c d :=
      exists_node_of_ht_pos (by omega)
    rw [doRotations0_node]
    by_cases c1 : ht ll < ht lr
    · rw [if_pos c1]
      obtain ⟨p, q, s, u, rfl⟩ : ∃ a b c d, lr = node a b c d :=
        exists_node_of_ht_pos (by omega)
      simp [List.append_assoc]
    · rw [if_neg c1]; simp
  · rw [if_neg c0]
    by_cases c1 : ht r > ht l + 1
    · rw [if_pos c1]
      obtain ⟨rl, rk, rh, rr, rfl⟩ : ∃ a b c d, r = node a b c d :=
        exists_node_of_ht_pos (by omega)
      rw [doRotations1_node]
      by_cases c2 : ht rr < ht rl
      · rw [if_pos c2]
        obtain ⟨p, q, s, u, rfl⟩ : ∃ a b c d, rl = node a b c d :=
          exists_node_of_ht_pos (by omega)
        simp [List.append_assoc]
      · rw [if_neg c2]; simp
    · rw [if_neg c1]; simp

theorem doRotations0_spec {l r : Tree α} (k : α) (h : Nat)
    (hl : Avl l) (hr : Avl r) (hd : ht l = ht r + 2) :
    Avl (doRotations0 (node l k h r)) ∧
      (ht (doRotations0 (node l k h r)) = ht r + 2 ∨
       ht (doRotations0 (node l k h r)) = ht r + 3) := by
  obtain ⟨ll, lk, lh, lr, rfl⟩ : ∃ a b c d, l = node a b c d :=
    exists_node_of_ht_pos (by omega)
  rw [avl_node_iff] at hl
  obtain ⟨hlh, hb1, hb2, hll, hlr⟩ := hl
  simp only [ht_node] at hd
  rw [doRotations0_node]
  by_cases c1 : ht ll < ht lr
  · rw [if_pos c1]
    obtain ⟨p, q, s, u, rfl⟩ : ∃ a b c d, lr = node a b c d :=
      exists_node_of_ht_pos (by omega)
    rw [avl_node_iff] at hlr
    obtain ⟨hs, hc1, hc2, hp, hu⟩ := hlr
    simp only [ht_node] at hlh hb1 hb2 c1 hs ⊢
    constructor
    · rw [avl_mkNode_iff, avl_mkNode_iff, avl_mkNode_iff]
      exact ⟨by simp only [ht_mkNode]; omega, by simp only [ht_mkNode]; omega,
        ⟨by omega, by omega, hll, hp⟩, by omega, by omega, hu, hr⟩
    · simp only [ht_mkNode]; omega
  · rw [if_neg c1]
    constructor
    · rw [avl_mkNode_iff, avl_mkNode_iff]
      exact ⟨by simp only [ht_mkNode]; omega, by simp only [ht_mkNode]; omega,
        hll, by omega, by omega, hlr, hr⟩
    · simp only [ht_mkNode]; omega

theorem doRotations1_spec {l r : Tree α} (k : α) (h : Nat)
    (hl : Avl l) (hr : Avl r) (hd : ht r = ht l + 2) :
    Avl (doRotations1 (node l k h r)) ∧
      (ht (doRotations1 (node l k h r)) = ht l + 2 ∨
       ht (doRotations1 (node l k h r)) = ht l + 3) := by
  obtain ⟨rl, rk, rh, rr, rfl⟩ : ∃ a b c d, r = node a b c d :=
    exists_node_of_ht_pos (by omega)
  rw [avl_node_iff] at hr
  obtain ⟨hrh, hb1, hb2, hrl, hrr⟩ := hr
  simp only [ht_node] at hd
  rw [doRotations1_node]
  by_cases c1 : ht rr < ht rl
  · rw [if_pos c1]
    obtain ⟨p, q, s, u, rfl⟩ : ∃ a b c d, rl = node a b c d :=
      exists_node_of_ht_pos (by omega)
    rw [avl_node_iff] at hrl
    obtain ⟨hs, hc1, hc2, hp, hu⟩ := hrl
    simp only [ht_node] at hrh hb1 hb2 c1 hs ⊢
    constructor
    · rw [avl_mkNode_iff, avl_mkNode_iff, avl_mkNode_iff]
      exact ⟨by simp only [ht_mkNode]; omega, by simp only [ht_mkNode]; omega,
        ⟨by omega, by omega, hl, hp⟩, by omega, by omega, hu, hrr⟩
    · simp only [ht_mkNode]; omega
  · rw [if_neg c1]
    constructor
    · rw [avl_mkNode_iff, avl_mkNode_iff]
      exact ⟨by simp only [ht_mkNode]; omega, by simp only [ht_mkNode]; omega,
        ⟨by omega, by omega, hl, hrl⟩, hrr⟩
    · simp only [ht_mkNode]; omega

/-- The full specification of one rebalancing step at a node whose children
are AVL and whose stored heights differ by at most two: the result is AVL,
its height is `max` or `max + 1` of the children's heights plus zero or one,
and when no rotation was needed the height is exactly `1 + max`. -/
theorem rebalanceNode_spec {l r : Tree α} (k : α) (h : Nat)
    (hl : Avl l) (hr : Avl r) (h1 : ht l ≤ ht r + 2) (h2 : ht r ≤ ht l + 2) :
    Avl (rebalanceNode (node l k h r)) ∧
      max (ht l) (ht r) ≤ ht (rebalanceNode (node l k h r)) ∧
      ht (rebalanceNode (node l k h r)) ≤ 1 + max (ht l) (ht r) ∧
      (ht l ≤ ht r + 1 → ht r ≤ ht l + 1 →
        ht (rebalanceNode (node l k h r)) = 1 + max (ht l) (ht r)) := by
  rw [rebalanceNode_node]
  by_cases c0 : ht l > ht r + 1
  · rw [if_pos c0]
    obtain ⟨hA, hh⟩ := doRotations0_spec k h hl hr (by omega)
    exact ⟨hA, by omega, by omega, by omega⟩
  · rw [if_neg c0]
    by_cases c1 : ht r > ht l + 1
    · rw [if_pos c1]
      obtain ⟨hA, hh⟩ := doRotations1_spec k h hl hr (by omega)
      exact ⟨hA, by omega, by omega, by omega⟩
    · rw [if_neg c1]
      exact ⟨avl_mkNode_iff.mpr ⟨by omega, by omega, hl, hr⟩,
        by simp only [ht_mkNode]; omega, by simp only [ht_mkNode]; omega,
        fun _ _ => by simp only [ht_mkNode]⟩

/-! ## Ordering lemmas -/

theorem ordered_node_iff {l : Tree α} {k : α} {h : Nat} {r : Tree α} :
    Ordered (node l k h r) ↔
      Ordered l ∧ Ordered r ∧ (∀ x ∈ inorder l, x < k) ∧ (∀ y ∈ inorder r, k < y) := by
  simp only [Ordered, inorder_node, List.Sorted, List.pairwise_append,
    List.pairwise_cons, List.mem_cons]
  constructor
  · rintro ⟨h1, ⟨h2, h3⟩, h4⟩
    exact ⟨h1, h3, fun x hx => h4 x hx k (Or.inl rfl), h2⟩
  · rintro ⟨h1, h2, h3, h4⟩
    refine ⟨h1, ⟨h4, h2⟩, ?_⟩
    rintro x hx b (rfl | hb)
    · exact h3 x hx
    · exact lt_trans (h3 x hx) (h4 b hb)

theorem sorted_middle {L1 L2 : List α} {v : α}
    (hs : List.Sorted (· < ·) (L1 ++ L2))
    (h1 : ∀ x ∈ L1, x < v) (h2 : ∀ y ∈ L2, v < y) :
    List.Sorted (· < ·) (L1 ++ v :: L2) := by
  simp only [List.Sorted, List.pairwise_append, List.pairwise_cons, List.mem_cons] at *
  obtain ⟨s1, s2, cross⟩ := hs
  refine ⟨s1, ⟨h2, s2⟩, ?_⟩
  rintro a ha b (rfl | hb)
  · exact h1 a ha
  · exact cross a ha b hb

theorem sorted_drop_middle {L1 L2 : List α} {v : α}
    (hs : List.Sorted (· < ·) (L1 ++ v :: L2)) :
    List.Sorted (· < ·) (L1 ++ L2) := by
  simp only [List.Sorted, List.pairwise_append, List.pairwise_cons, List.mem_cons] at *
  obtain ⟨s1, ⟨_, s2⟩, cross⟩ := hs
  exact ⟨s1, s2, fun a ha b hb => cross a ha b (Or.inr hb)⟩

theorem sorted_middle_bounds {L1 L2 : List α} {v : α}
    (hs : List.Sorted (· < ·) (L1 ++ v :: L2)) :
    (∀ x ∈ L1, x < v) ∧ (∀ y ∈ L2, v < y) := by
  simp only [List.Sorted, List.pairwise_append, List.pairwise_cons, List.mem_cons] at hs
  obtain ⟨_, ⟨hv, _⟩, cross⟩ := hs
  exact ⟨fun x hx => cross x hx v (Or.inl rfl), hv⟩

/-! ## Add -/

theorem addGo_avl {t : Tree α} {v : α} (hA : Avl t) {t' : Tree α}
    (he : addGo t v = some t') :
    Avl t' ∧ (ht t' = ht t ∨ ht t' = ht t + 1) := by
  induction t generalizing t' with
  | nil => simp [addGo] at he
  | node l k h r ihl ihr =>
    rw [avl_node_iff] at hA
    obtain ⟨hh, hb1, hb2, hl, hr⟩ := hA
    by_cases hv : v < k
    · cases l with
      | nil =>
        rw [addGo.eq_def] at he
        simp only [if_pos hv, Option.some.injEq] at he
        subst he
        simp only [ht_nil, ht_node] at hh hb1 hb2
        refine ⟨avl_mkNode_iff.mpr ⟨?_, ?_, ?_, hr⟩, ?_⟩
        · simp only [ht_node]; omega
        · simp only [ht_node]; omega
        · exact avl_node_iff.mpr ⟨by simp, by simp, by simp, trivial, trivial⟩
        · simp only [ht_mkNode, ht_node]; omega
      | node a b c d =>
        rw [addGo.eq_def] at he
        simp only [if_pos hv] at he
        cases hmap : addGo (node a b c d) v with
        | none => rw [hmap] at he; simp at he
        | some l' =>
          rw [hmap] at he
          simp only [Option.map_some', Option.some.injEq] at he
          subst he
          obtain ⟨hA', hht'⟩ := ihl hl hmap
          obtain ⟨rA, rlo, rhi, rbal⟩ :=
            rebalanceNode_spec k h hA' hr (by simp only [ht_node] at *; omega)
              (by simp only [ht_node] at *; omega)
          refine ⟨rA, ?_⟩
          by_cases hc : ht l' ≤ ht r + 1 ∧ ht r ≤ ht l' + 1
          · have := rbal hc.1 hc.2
            simp only [ht_node] at *
            omega
          · simp only [ht_node] at *
            omega
    · by_cases hv' : k < v
      · cases r with
        | nil =>
          rw [addGo.eq_def] at he
          simp only [if_neg hv, if_pos hv', Option.some.injEq] at he
          subst he
          simp only [ht_nil, ht_node] at hh hb1 hb2
          refine ⟨avl_mkNode_iff.mpr ⟨?_, ?_, hl, ?_⟩, ?_⟩
          · simp only [ht_node]; omega
          · simp only [ht_node]; omega
          · exact avl_node_iff.mpr ⟨by simp, by simp, by simp, trivial, trivial⟩
          · simp only [ht_mkNode, ht_node]; omega
        | node a b c d =>
          rw [addGo.eq_def] at he
          simp only [if_neg hv, if_pos hv'] at he
          cases hmap : addGo (node a b c d) v with
          | none => rw [hmap] at he; simp at he
          | some r' =>
            rw [hmap] at he
            simp only [Option.map_some', Option.some.injEq] at he
            subst he
            obtain ⟨hA', hht'⟩ := ihr hr hmap
            obtain ⟨rA, rlo, rhi, rbal⟩ :=
              rebalanceNode_spec k h hl hA' (by simp only [ht_node] at *; omega)
                (by simp only [ht_node] at *; omega)
            refine ⟨rA, ?_⟩
            by_cases hc : ht l ≤ ht r' + 1 ∧ ht r' ≤ ht l + 1
            · have := rbal hc.1 hc.2
              simp only [ht_node] at *
              omega
            · simp only [ht_node] at *
              omega
      · rw [addGo.eq_def] at he
        simp only [if_neg hv, if_neg hv'] at he
        exact Option.noConfusion he

theorem addGo_inorder {t : Tree α} {v : α} (hO : Ordered t) {t' : Tree α}
    (he : addGo t v = some t') :
    ∃ L1 L2, inorder t = L1 ++ L2 ∧ inorder t' = L1 ++ v :: L2 ∧
      (∀ x ∈ L1, x < v) ∧ (∀ y ∈ L2, v < y) := by
  induction t generalizing t' with
  | nil => simp [addGo] at he
  | node l k h r ihl ihr =>
    rw [ordered_node_iff] at hO
    obtain ⟨hOl, hOr, hlk, hkr⟩ := hO
    by_cases hv : v < k
    · cases l with
      | nil =>
        rw [addGo.eq_def] at he
        simp only [if_pos hv, Option.some.injEq] at he
        subst he
        refine ⟨[], k :: inorder r, by simp, by simp, by simp, ?_⟩
        intro y hy
        rcases List.mem_cons.mp hy with rfl | hy
        · exact hv
        · exact lt_trans hv (hkr y hy)
      | node a b c d =>
        rw [addGo.eq_def] at he
        simp only [if_pos hv] at he
        cases hmap : addGo (node a b c d) v with
        | none => rw [hmap] at he; simp at he
        | some l' =>
          rw [hmap] at he
          simp only [Option.map_some', Option.some.injEq] at he
          subst he
          obtain ⟨L1, L2, hsplit, hins, hL1, hL2⟩ := ihl hOl hmap
          refine ⟨L1, L2 ++ k :: inorder r, ?_, ?_, hL1, ?_⟩
          · simp [hsplit, List.append_assoc]
          · rw [rebalanceNode_inorder]
            simp [hins, List.append_assoc]
          · intro y hy
            rcases List.mem_append.mp hy with hy | hy
            · exact hL2 y hy
            · rcases List.mem_cons.mp hy with rfl | hy
              · exact hv
              · exact lt_trans hv (hkr y hy)
    · by_cases hv' : k < v
      · cases r with
        | nil =>
          rw [addGo.eq_def] at he
          simp only [if_neg hv, if_pos hv', Option.some.injEq] at he
          subst he
          refine ⟨inorder l ++ [k], [], by simp, by simp, ?_, by simp⟩
          intro x hx
          rcases List.mem_append.mp hx with hx | hx
          · exact lt_trans (hlk x hx) hv'
          · rcases List.mem_singleton.mp hx with rfl
            exact hv'
        | node a b c d =>
          rw [addGo.eq_def] at he
          simp only [if_neg hv, if_pos hv'] at he
          cases hmap : addGo (node a b c d) v with
          | none => rw [hmap] at he; simp at he
          | some r' =>
            rw [hmap] at he
            simp only [Option.map_some', Option.some.injEq] at he
            subst he
            obtain ⟨L1, L2, hsplit, hins, hL1, hL2⟩ := ihr hOr hmap
            refine ⟨inorder l ++ k :: L1, L2, ?_, ?_, ?_, hL2⟩
            · simp [hsplit, List.append_assoc]
            · rw [rebalanceNode_inorder]
              simp [hins, List.append_assoc]
            · intro x hx
              rcases List.mem_append.mp hx with hx | hx
              · exact lt_trans (hlk x hx) hv'
              · rcases List.mem_cons.mp hx with rfl | hx
                · exact hv'
                · exact hL1 x hx
      · rw [addGo.eq_def] at he
        simp only [if_neg hv, if_neg hv'] at he
        exact Option.noConfusion he

theorem addGo_eq_none_iff {t : Tree α} {v : α} (hO : Ordered t) (hne : t ≠ nil) :
    addGo t v = none ↔ v ∈ inorder t := by
  induction t with
  | nil => exact absurd rfl hne
  | node l k h r ihl ihr =>
    rw [ordered_node_iff] at hO
    obtain ⟨hOl, hOr, hlk, hkr⟩ := hO
    rw [addGo.eq_def]
    by_cases hv : v < k
    · simp only [if_pos hv]
      cases l with
      | nil =>
        constructor
        · intro hc; exact Option.noConfusion hc
        · intro hmem
          exfalso
          simp only [inorder_node, inorder_nil, List.nil_append, List.mem_cons] at hmem
          rcases hmem with rfl | hmem
          · exact lt_irrefl v hv
          · exact lt_irrefl v (lt_trans hv (hkr v hmem))
      | node a b c d =>
        rw [Option.map_eq_none', ihl hOl (by intro hc; exact Tree.noConfusion hc)]
        constructor
        · intro hm
          exact List.mem_append.mpr (Or.inl hm)
        · intro hm
          rcases List.mem_append.mp hm with hm | hm
          · exact hm
          · rcases List.mem_cons.mp hm with rfl | hm
            · exact absurd hv (lt_irrefl v)
            · exact absurd (lt_trans hv (hkr v hm)) (lt_irrefl v)
    · by_cases hv' : k < v
      · simp only [if_neg hv, if_pos hv']
        cases r with
        | nil =>
          constructor
          · intro hc; exact Option.noConfusion hc
          · intro hmem
            exfalso
            simp only [inorder_node, inorder_nil, List.mem_append, List.mem_cons] at hmem
            rcases hmem with hmem | rfl | hmem
            · exact lt_irrefl k (lt_trans hv' (hlk v hmem))
            · exact lt_irrefl v hv'
            · simp at hmem
        | node a b c d =>
          rw [Option.map_eq_none', ihr hOr (by intro hc; exact Tree.noConfusion hc)]
          constructor
          · intro hm
            exact List.mem_append.mpr (Or.inr (List.mem_cons.mpr (Or.inr hm)))
          · intro hm
            rcases List.mem_append.mp hm with hm | hm
            · exact absurd (lt_trans hv' (hlk v hm)) (lt_irrefl k)
            · rcases List.mem_cons.mp hm with rfl | hm
              · exact absurd hv' (lt_irrefl v)
              · exact hm
      · simp only [if_neg hv, if_neg hv']
        have hvk : v = k := le_antisymm (le_of_not_lt hv') (le_of_not_lt hv)
        subst hvk
        simp

/-- `Add` preserves the AVL shape invariant and the ordering invariant. -/
theorem add_preserves {t : Tree α} (v : α) (hA : Avl t) (hO : Ordered t) :
    Avl (add t v).1 ∧ Ordered (add t v).1 := by
  cases t with
  | nil =>
    constructor
    · exact avl_node_iff.mpr ⟨by simp, by simp, by simp, trivial, trivial⟩
    · simp [add, Ordered]
  | node l k h r =>
    cases hmap : addGo (node l k h r) v with
    | none => simpa [add, hmap] using ⟨hA, hO⟩
    | some t' =>
      have hAvl := addGo_avl hA hmap
      obtain ⟨L1, L2, hsplit, hins, hL1, hL2⟩ := addGo_inorder hO hmap
      have hO' : List.Sorted (· < ·) (L1 ++ L2) := by
        have := hO
        rw [Ordered, hsplit] at this
        exact this
      refine ⟨by simpa [add, hmap] using hAvl.1, ?_⟩
      have : (add (node l k h r) v).1 = t' := by simp [add, hmap]
      rw [this, Ordered, hins]
      exact sorted_middle hO' hL1 hL2

/-! ## Delete -/

theorem delMinGo_node (a : Tree α) (b : α) (c : Nat) (d : Tree α)
    (k : α) (h : Nat) (r : Tree α) :
    delMinGo (node a b c d) k h r =
      ((delMinGo a b c d).1,
        rebalanceNode (node (delMinGo a b c d).2 k h r)) := rfl

theorem delMinGo_inorder (l : Tree α) :
    ∀ (k : α) (h : Nat) (r : Tree α),
      (delMinGo l k h r).1 :: inorder (delMinGo l k h r).2 =
        inorder l ++ k :: inorder r := by
  induction l with
  | nil => intro k h r; simp [delMinGo]
  | node a b c d iha ihd =>
    intro k h r
    rw [delMinGo_node, rebalanceNode_inorder]
    simp only [inorder_node, ← iha b c d]
    simp

theorem delMinGo_avl (l : Tree α) :
    ∀ (k : α) (h : Nat) (r : Tree α), Avl (node l k h r) →
      Avl (delMinGo l k h r).2 ∧
        (ht (delMinGo l k h r).2 = h ∨ ht (delMinGo l k h r).2 + 1 = h) := by
  induction l with
  | nil =>
    intro k h r hA
    rw [avl_node_iff] at hA
    obtain ⟨hh, hb1, hb2, _, hr⟩ := hA
    refine ⟨hr, ?_⟩
    simp only [delMinGo]
    simp only [ht_nil] at hh hb1 hb2
    omega
  | node a b c d iha ihd =>
    intro k h r hA
    rw [avl_node_iff] at hA
    obtain ⟨hh, hb1, hb2, hl, hr⟩ := hA
    rw [delMinGo_node]
    obtain ⟨hA2, hht⟩ := iha b c d hl
    obtain ⟨rA, rlo, rhi, rbal⟩ :=
      rebalanceNode_spec k h hA2 hr (by simp only [ht_node] at *; omega)
        (by simp only [ht_node] at *; omega)
    refine ⟨rA, ?_⟩
    by_cases hc : ht (delMinGo a b c d).2 ≤ ht r + 1 ∧ ht r ≤ ht (delMinGo a b c d).2 + 1
    · have := rbal hc.1 hc.2
      simp only [ht_node] at *
      omega
    · simp only [ht_node] at *
      omega

theorem delGo_eq_none_iff {t : Tree α} {v : α} (hO : Ordered t) :
    delGo t v = none ↔ v ∉ inorder t := by
  induction t with
  | nil => simp [delGo]
  | node l k h r ihl ihr =>
    rw [ordered_node_iff] at hO
    obtain ⟨hOl, hOr, hlk, hkr⟩ := hO
    rw [delGo.eq_def]
    by_cases hv : v < k
    · simp only [if_pos hv, Option.map_eq_none']
      rw [ihl hOl]
      constructor
      · intro hm hmem
        rcases List.mem_append.mp hmem with h1 | h1
        · exact hm h1
        · rcases List.mem_cons.mp h1 with rfl | h1
          · exact lt_irrefl v hv
          · exact lt_irrefl v (lt_trans hv (hkr v h1))
      · intro hm h1
        exact hm (List.mem_append.mpr (Or.inl h1))
    · by_cases hv2 : k < v
      · simp only [if_neg hv, if_pos hv2, Option.map_eq_none']
        rw [ihr hOr]
        constructor
        · intro hm hmem
          rcases List.mem_append.mp hmem with h1 | h1
          · exact lt_irrefl k (lt_trans hv2 (hlk v h1))
          · rcases List.mem_cons.mp h1 with rfl | h1
            · exact lt_irrefl v hv2
            · exact hm h1
        · intro hm h1
          exact hm (List.mem_append.mpr (Or.inr (List.mem_cons.mpr (Or.inr h1))))
      · have hvk : v = k := le_antisymm (le_of_not_lt hv2) (le_of_not_lt hv)
        subst hvk
        simp only [if_neg hv, if_neg hv2]
        constructor
        · intro hc; exact Option.noConfusion hc
        · intro hm
          exact absurd (List.mem_append.mpr (Or.inr (List.mem_cons.mpr (Or.inl rfl)))) hm

theorem delGo_some {t : Tree α} {v : α} (hO : Ordered t) {t2 : Tree α}
    (he : delGo t v = some t2) :
    ∃ L1 L2, inorder t = L1 ++ v :: L2 ∧ inorder t2 = L1 ++ L2 := by
  induction t generalizing t2 with
  | nil => simp [delGo] at he
  | node l k h r ihl ihr =>
    rw [ordered_node_iff] at hO
    obtain ⟨hOl, hOr, hlk, hkr⟩ := hO
    rw [delGo.eq_def] at he
    by_cases hv : v < k
    · simp only [if_pos hv] at he
      cases hmap : delGo l v with
      | none => rw [hmap] at he; simp at he
      | some l2 =>
        rw [hmap] at he
        simp only [Option.map_some', Option.some.injEq] at he
        subst he
        obtain ⟨L1, L2, h1, h2⟩ := ihl hOl hmap
        refine ⟨L1, L2 ++ k :: inorder r, ?_, ?_⟩
        · simp [h1, List.append_assoc]
        · rw [rebalanceNode_inorder, h2]; simp [List.append_assoc]
    · by_cases hv2 : k < v
      · simp only [if_neg hv, if_pos hv2] at he
        cases hmap : delGo r v with
        | none => rw [hmap] at he; simp at he
        | some r2 =>
          rw [hmap] at he
          simp only [Option.map_some', Option.some.injEq] at he
          subst he
          obtain ⟨L1, L2, h1, h2⟩ := ihr hOr hmap
          refine ⟨inorder l ++ k :: L1, L2, ?_, ?_⟩
          · simp [h1, List.append_assoc]
          · rw [rebalanceNode_inorder, h2]; simp [List.append_assoc]
      · have hvk : v = k := le_antisymm (le_of_not_lt hv2) (le_of_not_lt hv)
        subst hvk
        cases r with
        | nil =>
          simp only [if_neg hv, if_neg hv2, Option.some.injEq] at he
          subst he
          exact ⟨inorder l, [], by simp, by simp⟩
        | node a b c d =>
          simp only [if_neg hv, if_neg hv2, Option.some.injEq] at he
          have H : (delMinGo a b c d).1 :: inorder (delMinGo a b c d).2 =
              inorder (node a b c d) := delMinGo_inorder a b c d
          refine ⟨inorder l, inorder (node a b c d), by simp, ?_⟩
          rw [← he, rebalanceNode_inorder, H]

theorem delGo_avl {t : Tree α} {v : α} (hA : Avl t) {t2 : Tree α}
    (he : delGo t v = some t2) :
    Avl t2 ∧ (ht t2 = ht t ∨ ht t2 + 1 = ht t) := by
  induction t generalizing t2 with
  | nil => simp [delGo] at he
  | node l k h r ihl ihr =>
    rw [avl_node_iff] at hA
    obtain ⟨hh, hb1, hb2, hl, hr⟩ := hA
    rw [delGo.eq_def] at he
    by_cases hv : v < k
    · simp only [if_pos hv] at he
      cases hmap : delGo l v with
      | none => rw [hmap] at he; simp at he
      | some l2 =>
        rw [hmap] at he
        simp only [Option.map_some', Option.some.injEq] at he
        subst he
        obtain ⟨hA2, hht⟩ := ihl hl hmap
        obtain ⟨rA, rlo, rhi, rbal⟩ :=
          rebalanceNode_spec k h hA2 hr (by omega) (by omega)
        refine ⟨rA, ?_⟩
        by_cases hc : ht l2 ≤ ht r + 1 ∧ ht r ≤ ht l2 + 1
        · have := rbal hc.1 hc.2
          simp only [ht_node] at *
          omega
        · simp only [ht_node] at *
          omega
    · by_cases hv2 : k < v
      · simp only [if_neg hv, if_pos hv2] at he
        cases hmap : delGo r v with
        | none => rw [hmap] at he; simp at he
        | some r2 =>
          rw [hmap] at he
          simp only [Option.map_some', Option.some.injEq] at he
          subst he
          obtain ⟨hA2, hht⟩ := ihr hr hmap
          obtain ⟨rA, rlo, rhi, rbal⟩ :=
            rebalanceNode_spec k h hl hA2 (by omega) (by omega)
          refine ⟨rA, ?_⟩
          by_cases hc : ht l ≤ ht r2 + 1 ∧ ht r2 ≤ ht l + 1
          · have := rbal hc.1 hc.2
            simp only [ht_node] at *
            omega
          · simp only [ht_node] at *
            omega
      · have hvk : v = k := le_antisymm (le_of_not_lt hv2) (le_of_not_lt hv)
        subst hvk
        cases r with
        | nil =>
          simp only [if_neg hv, if_neg hv2, Option.some.injEq] at he
          subst he
          refine ⟨hl, ?_⟩
          simp only [ht_nil, ht_node] at *
          omega
        | node a b c d =>
          simp only [if_neg hv, if_neg hv2, Option.some.injEq] at he
          obtain ⟨hA2, hht⟩ := delMinGo_avl a b c d hr
          obtain ⟨rA, rlo, rhi, rbal⟩ :=
            rebalanceNode_spec (delMinGo a b c d).1 h hl hA2
              (by simp only [ht_node] at *; omega)
              (by simp only [ht_node] at *; omega)
          rw [← he]
          refine ⟨rA, ?_⟩
          by_cases hc : ht l ≤ ht (delMinGo a b c d).2 + 1 ∧
              ht (delMinGo a b c d).2 ≤ ht l + 1
          · have := rbal hc.1 hc.2
            simp only [ht_node] at *
            omega
          · simp only [ht_node] at *
            omega

/-- `Delete` preserves the AVL shape invariant and the ordering invariant. -/
theorem delete_preserves {t : Tree α} (v : α) (hA : Avl t) (hO : Ordered t) :
    Avl (delete t v).1 ∧ Ordered (delete t v).1 := by
  cases hmap : delGo t v with
  | none => simpa [delete, hmap] using ⟨hA, hO⟩
  | some t2 =>
    obtain ⟨hA2, _⟩ := delGo_avl hA hmap
    obtain ⟨L1, L2, h1, h2⟩ := delGo_some hO hmap
    have hfst : (delete t v).1 = t2 := by simp [delete, hmap]
    rw [hfst]
    refine ⟨hA2, ?_⟩
    rw [Ordered, h2]
    have hs := hO
    rw [Ordered, h1] at hs
    exact sorted_drop_middle hs

/-! ## Merge -/

theorem extractMaxGo_node (l : Tree α) (k : α) (h : Nat)
    (a : Tree α) (b : α) (c : Nat) (d : Tree α) :
    extractMaxGo l k h (node a b c d) =
      (rebalanceNode (node l k h (extractMaxGo a b c d).1),
        (extractMaxGo a b c d).2) := rfl

theorem extractMaxGo_inorder (r : Tree α) :
    ∀ (l : Tree α) (k : α) (h : Nat),
      inorder (extractMaxGo l k h r).1 ++ [(extractMaxGo l k h r).2] =
        inorder (node l k h r) := by
  induction r with
  | nil => intro l k h; simp [extractMaxGo]
  | node a b c d iha ihd =>
    intro l k h
    rw [extractMaxGo_node]
    simp only [rebalanceNode_inorder, inorder_node, ← ihd a b c]
    simp

theorem extractMaxGo_avl (r : Tree α) :
    ∀ (l : Tree α) (k : α) (h : Nat), Avl (node l k h r) →
      Avl (extractMaxGo l k h r).1 ∧
        (ht (extractMaxGo l k h r).1 = h ∨ ht (extractMaxGo l k h r).1 + 1 = h) := by
  induction r with
  | nil =>
    intro l k h hA
    rw [avl_node_iff] at hA
    obtain ⟨hh, hb1, hb2, hl, _⟩ := hA
    refine ⟨hl, ?_⟩
    simp only [extractMaxGo]
    simp only [ht_nil] at hh hb1 hb2
    omega
  | node a b c d iha ihd =>
    intro l k h hA
    rw [avl_node_iff] at hA
    obtain ⟨hh, hb1, hb2, hl, hr⟩ := hA
    rw [extractMaxGo_node]
    obtain ⟨hA2, hht⟩ := ihd a b c hr
    obtain ⟨rA, rlo, rhi, rbal⟩ :=
      rebalanceNode_spec k h hl hA2 (by simp only [ht_node] at *; omega)
        (by simp only [ht_node] at *; omega)
    refine ⟨rA, ?_⟩
    by_cases hc : ht l ≤ ht (extractMaxGo a b c d).1 + 1 ∧
        ht (extractMaxGo a b c d).1 ≤ ht l + 1
    · have := rbal hc.1 hc.2
      simp only [ht_node] at *
      omega
    · simp only [ht_node] at *
      omega

theorem mergeDescendR_node (l : Tree α) (k0 : α) (h : Nat) (r : Tree α)
    (k : α) (hang : Tree α) (hMin : Nat) :
    mergeDescendR (node l k0 h r) k hang hMin =
      if ht r = hMin + 1 ∨ ht r = hMin then
        rebalanceNode (node l k0 h (mkNode r k hang))
      else
        rebalanceNode (node l k0 h (mergeDescendR r k hang hMin)) := rfl

theorem mergeDescendL_node (l : Tree α) (k0 : α) (h : Nat) (r : Tree α)
    (k : α) (hang : Tree α) (hMin : Nat) :
    mergeDescendL (node l k0 h r) k hang hMin =
      if ht l = hMin + 1 ∨ ht l = hMin then
        rebalanceNode (node (mkNode hang k l) k0 h r)
      else
        rebalanceNode (node (mergeDescendL l k hang hMin) k0 h r) := rfl

theorem mergeDescendR_spec (t : Tree α) :
    ∀ (k : α) (hang : Tree α), Avl t → Avl hang → ht hang + 2 ≤ ht t →
      Avl (mergeDescendR t k hang (ht hang)) ∧
        inorder (mergeDescendR t k hang (ht hang)) = inorder t ++ k :: inorder hang ∧
        (ht (mergeDescendR t k hang (ht hang)) = ht t ∨
         ht (mergeDescendR t k hang (ht hang)) = ht t + 1) := by
  induction t with
  | nil => intro k hang _ _ hlt; simp at hlt
  | node l k0 h r ihl ihr =>
    intro k hang hA hH hlt
    rw [avl_node_iff] at hA
    obtain ⟨hh, hb1, hb2, hl, hr⟩ := hA
    rw [mergeDescendR_node]
    by_cases hc : ht r = ht hang + 1 ∨ ht r = ht hang
    · rw [if_pos hc]
      have hS : Avl (mkNode r k hang) := avl_mkNode_iff.mpr ⟨by omega, by omega, hr, hH⟩
      obtain ⟨rA, rlo, rhi, rbal⟩ :=
        rebalanceNode_spec k0 h hl hS (by simp only [ht_mkNode]; omega)
          (by simp only [ht_mkNode]; omega)
      refine ⟨rA, ?_, ?_⟩
      · rw [rebalanceNode_inorder]; simp [List.append_assoc]
      · by_cases hbal : ht l ≤ ht (mkNode r k hang) + 1 ∧ ht (mkNode r k hang) ≤ ht l + 1
        · have := rbal hbal.1 hbal.2
          simp only [ht_mkNode, ht_node] at *
          omega
        · simp only [ht_mkNode, ht_node] at *
          omega
    · rw [if_neg hc]
      have hrec : ht hang + 2 ≤ ht r := by simp only [ht_node] at hlt; omega
      obtain ⟨qA, qI, qH⟩ := ihr k hang hr hH hrec
      obtain ⟨rA, rlo, rhi, rbal⟩ :=
        rebalanceNode_spec k0 h hl qA (by omega) (by omega)
      refine ⟨rA, ?_, ?_⟩
      · rw [rebalanceNode_inorder, qI]; simp [List.append_assoc]
      · by_cases hbal : ht l ≤ ht (mergeDescendR r k hang (ht hang)) + 1 ∧
            ht (mergeDescendR r k hang (ht hang)) ≤ ht l + 1
        · have := rbal hbal.1 hbal.2
          simp only [ht_node] at *
          omega
        · simp only [ht_node] at *
          omega

theorem mergeDescendL_spec (t : Tree α) :
    ∀ (k : α) (hang : Tree α), Avl t → Avl hang → ht hang + 2 ≤ ht t →
      Avl (mergeDescendL t k hang (ht hang)) ∧
        inorder (mergeDescendL t k hang (ht hang)) = inorder hang ++ k :: inorder t ∧
        (ht (mergeDescendL t k hang (ht hang)) = ht t ∨
         ht (mergeDescendL t k hang (ht hang)) = ht t + 1) := by
  induction t with
  | nil => intro k hang _ _ hlt; simp at hlt
  | node l k0 h r ihl ihr =>
    intro k hang hA hH hlt
    rw [avl_node_iff] at hA
    obtain ⟨hh, hb1, hb2, hl, hr⟩ := hA
    rw [mergeDescendL_node]
    by_cases hc : ht l = ht hang + 1 ∨ ht l = ht hang
    · rw [if_pos hc]
      have hS : Avl (mkNode hang k l) := avl_mkNode_iff.mpr ⟨by omega, by omega, hH, hl⟩
      obtain ⟨rA, rlo, rhi, rbal⟩ :=
        rebalanceNode_spec k0 h hS hr (by simp only [ht_mkNode]; omega)
          (by simp only [ht_mkNode]; omega)
      refine ⟨rA, ?_, ?_⟩
      · rw [rebalanceNode_inorder]; simp [List.append_assoc]
      · by_cases hbal : ht (mkNode hang k l) ≤ ht r + 1 ∧ ht r ≤ ht (mkNode hang k l) + 1
        · have := rbal hbal.1 hbal.2
          simp only [ht_mkNode, ht_node] at *
          omega
        · simp only [ht_mkNode, ht_node] at *
          omega
    · rw [if_neg hc]
      have hrec : ht hang + 2 ≤ ht l := by simp only [ht_node] at hlt; omega
      obtain ⟨qA, qI, qH⟩ := ihl k hang hl hH hrec
      obtain ⟨rA, rlo, rhi, rbal⟩ :=
        rebalanceNode_spec k0 h qA hr (by omega) (by omega)
      refine ⟨rA, ?_, ?_⟩
      · rw [rebalanceNode_inorder, qI]; simp [List.append_assoc]
      · by_cases hbal : ht (mergeDescendL l k hang (ht hang)) ≤ ht r + 1 ∧
            ht r ≤ ht (mergeDescendL l k hang (ht hang)) + 1
        · have := rbal hbal.1 hbal.2
          simp only [ht_node] at *
          omega
        · simp only [ht_node] at *
          omega

/-- `MergeWithRoot` produces an AVL tree whose in-order sequence is
left ++ pivot ++ right, for any two AVL argument trees. -/
theorem mergeWithRoot_spec {lt rt : Tree α} (k : α) (hA1 : Avl lt) (hA2 : Avl rt) :
    Avl (mergeWithRoot lt k rt) ∧
      inorder (mergeWithRoot lt k rt) = inorder lt ++ k :: inorder rt := by
  unfold mergeWithRoot
  by_cases hc1 : ht lt + 1 ≥ ht rt ∧ ht lt ≤ ht rt + 1
  · rw [if_pos hc1]
    exact ⟨avl_mkNode_iff.mpr ⟨by omega, by omega, hA1, hA2⟩, by simp⟩
  · rw [if_neg hc1]
    by_cases hc2 : ht lt > ht rt
    · rw [if_pos hc2]
      obtain ⟨A, I, _⟩ := mergeDescendR_spec lt k rt hA1 hA2 (by omega)
      exact ⟨A, I⟩
    · rw [if_neg hc2]
      obtain ⟨A, I, _⟩ := mergeDescendL_spec rt k lt hA2 hA1 (by omega)
      exact ⟨A, I⟩

theorem mergeWith_node (l : Tree α) (k : α) (h : Nat) (r : Tree α) (t2 : Tree α) :
    mergeWith (node l k h r) t2 =
      mergeWithRoot (extractMaxGo l k h r).1 (extractMaxGo l k h r).2 t2 := rfl

/-- `MergeWith` produces an AVL tree whose in-order sequence is the
concatenation of the two trees' in-order sequences. -/
theorem mergeWith_spec {t1 t2 : Tree α} (hA1 : Avl t1) (hA2 : Avl t2) :
    Avl (mergeWith t1 t2) ∧ inorder (mergeWith t1 t2) = inorder t1 ++ inorder t2 := by
  cases t1 with
  | nil => exact ⟨hA2, by simp [mergeWith]⟩
  | node l k h r =>
    obtain ⟨hA1', _⟩ := extractMaxGo_avl r l k h hA1
    obtain ⟨mA, mI⟩ := mergeWithRoot_spec (extractMaxGo l k h r).2 hA1' hA2
    refine ⟨by rw [mergeWith_node]; exact mA, ?_⟩
    rw [mergeWith_node, mI]
    have hI := extractMaxGo_inorder r l k h
    simp only [inorder_node] at hI ⊢
    rw [← hI]
    simp

/-- `MergeWith` preserves the ordering invariant when the precondition (all
keys of the first tree below all keys of the second) holds. -/
theorem mergeWith_ordered {t1 t2 : Tree α} (hA1 : Avl t1) (hA2 : Avl t2)
    (hO1 : Ordered t1) (hO2 : Ordered t2)
    (hcross : ∀ x ∈ inorder t1, ∀ y ∈ inorder t2, x < y) :
    Ordered (mergeWith t1 t2) := by
  obtain ⟨_, hI⟩ := mergeWith_spec hA1 hA2
  rw [Ordered, hI]
  exact List.pairwise_append.mpr ⟨hO1, hO2, hcross⟩

/-! ## Split -/

theorem splitGo_nil_path (l : Tree α) (k : α) (h : Nat) (r : Tree α) (g : Bool) :
    splitGo (node l k h r) [] g =
      if g then (mergeWith l (node nil k 1 nil), r)
      else (l, mergeWith (node nil k 1 nil) r) := rfl

theorem splitGo_cons (l : Tree α) (k : α) (h : Nat) (r : Tree α)
    (d : Bool) (ds : List Bool) (g : Bool) :
    splitGo (node l k h r) (d :: ds) g =
      if d then (mergeWithRoot l k (splitGo r ds g).1, (splitGo r ds g).2)
      else ((splitGo l ds g).1, mergeWithRoot (splitGo l ds g).2 k r) := rfl

theorem pathKey_node_cons (l : Tree α) (k : α) (h : Nat) (r : Tree α)
    (d : Bool) (ds : List Bool) :
    pathKey (node l k h r) (d :: ds) = pathKey (if d then r else l) ds := rfl

theorem pathKey_mem {t : Tree α} {p : List Bool} {kp : α}
    (h : pathKey t p = some kp) : kp ∈ inorder t := by
  induction t generalizing p with
  | nil => simp [pathKey] at h
  | node l k hh r ihl ihr =>
    cases p with
    | nil =>
      have : k = kp := by simpa [pathKey] using h
      subst this
      exact List.mem_append.mpr (Or.inr (List.mem_cons.mpr (Or.inl rfl)))
    | cons d ds =>
      rw [pathKey_node_cons] at h
      cases d with
      | false =>
        simp only [Bool.false_eq_true, if_neg] at h
        exact List.mem_append.mpr (Or.inl (ihl h))
      | true =>
        simp only [if_pos] at h
        exact List.mem_append.mpr (Or.inr (List.mem_cons.mpr (Or.inr (ihr h))))

theorem isValidPath_pathKey {t : Tree α} {p : List Bool}
    (h : isValidPath t p = true) : ∃ kp, pathKey t p = some kp := by
  induction t generalizing p with
  | nil => simp [isValidPath] at h
  | node l k hh r ihl ihr =>
    cases p with
    | nil => exact ⟨k, rfl⟩
    | cons d ds =>
      rw [pathKey_node_cons]
      cases d with
      | false =>
        simp only [Bool.false_eq_true, if_neg]
        exact ihl (by simpa [isValidPath] using h)
      | true =>
        simp only [if_pos]
        exact ihr (by simpa [isValidPath] using h)

theorem filter_all_false (P : α → Bool) (L : List α)
    (h : ∀ x ∈ L, P x = false) : L.filter P = [] := by
  induction L with
  | nil => rfl
  | cons a L ih =>
    rw [List.filter_cons, h a (List.mem_cons.mpr (Or.inl rfl))]
    simp only [Bool.false_eq_true, if_neg]
    exact ih fun x hx => h x (List.mem_cons.mpr (Or.inr hx))

theorem filter_all_true (P : α → Bool) (L : List α)
    (h : ∀ x ∈ L, P x = true) : L.filter P = L := by
  induction L with
  | nil => rfl
  | cons a L ih =>
    rw [List.filter_cons, h a (List.mem_cons.mpr (Or.inl rfl))]
    simp only [if_pos]
    rw [ih fun x hx => h x (List.mem_cons.mpr (Or.inr hx))]

/-- The splitting walk: starting from any live node (designated by a valid
path), the left accumulator collects exactly the keys below the node's key
(plus that key itself iff `keyGoesLeft`), the right accumulator exactly the
keys above it (plus the key iff not `keyGoesLeft`), and both accumulators are
AVL trees. -/
theorem splitGo_spec {p : List Bool} :
    ∀ {t : Tree α} {g : Bool} {kp : α}, Avl t → Ordered t →
      pathKey t p = some kp →
      Avl (splitGo t p g).1 ∧ Avl (splitGo t p g).2 ∧
      inorder (splitGo t p g).1 =
        (inorder t).filter (fun x => decide (x < kp)) ++ (if g then [kp] else []) ∧
      inorder (splitGo t p g).2 =
        (if g then [] else [kp]) ++ (inorder t).filter (fun x => decide (kp < x)) := by
  induction p with
  | nil =>
    intro t g kp hA hO hk
    cases t with
    | nil => simp [pathKey] at hk
    | node l k h r =>
      have hkk : k = kp := by simpa [pathKey] using hk
      subst hkk
      rw [avl_node_iff] at hA
      obtain ⟨hh, hb1, hb2, hl, hr⟩ := hA
      rw [ordered_node_iff] at hO
      obtain ⟨hOl, hOr, hlk, hkr⟩ := hO
      have hsingA : Avl (node nil k 1 nil) :=
        avl_node_iff.mpr ⟨by simp, by simp, by simp, trivial, trivial⟩
      have e1 : (inorder (node l k h r)).filter (fun x => decide (x < k)) = inorder l := by
        rw [inorder_node, List.filter_append, List.filter_cons]
        rw [filter_all_true (fun x => decide (x < k)) (inorder l) fun x hx => by
          simpa using hlk x hx]
        rw [filter_all_false (fun x => decide (x < k)) (inorder r) fun x hx => by
          simp [not_lt_of_gt (hkr x hx)]]
        simp
      have e2 : (inorder (node l k h r)).filter (fun x => decide (k < x)) = inorder r := by
        rw [inorder_node, List.filter_append, List.filter_cons]
        rw [filter_all_false (fun x => decide (k < x)) (inorder l) fun x hx => by
          simp [not_lt_of_gt (hlk x hx)]]
        rw [filter_all_true (fun x => decide (k < x)) (inorder r) fun x hx => by
          simpa using hkr x hx]
        simp
      rw [splitGo_nil_path]
      cases g with
      | true =>
        obtain ⟨mA, mI⟩ := mergeWith_spec hl hsingA
        rw [if_pos rfl]
        refine ⟨mA, hr, ?_, ?_⟩
        · rw [mI, e1]
          simp
        · rw [e2]
          simp
      | false =>
        obtain ⟨mA, mI⟩ := mergeWith_spec hsingA hr
        rw [if_neg (by simp)]
        refine ⟨hl, mA, ?_, ?_⟩
        · rw [e1]
          simp
        · rw [mI, e2]
          simp
  | cons d ds ih =>
    intro t g kp hA hO hk
    cases t with
    | nil => simp [pathKey] at hk
    | node l k h r =>
      rw [avl_node_iff] at hA
      obtain ⟨hh, hb1, hb2, hl, hr⟩ := hA
      rw [ordered_node_iff] at hO
      obtain ⟨hOl, hOr, hlk, hkr⟩ := hO
      rw [pathKey_node_cons] at hk
      rw [splitGo_cons]
      cases d with
      | true =>
        rw [if_pos rfl] at hk
        rw [if_pos rfl]
        have hkkp : k < kp := hkr kp (pathKey_mem hk)
        obtain ⟨qA1, qA2, qI1, qI2⟩ := ih hr hOr hk
        obtain ⟨mA, mI⟩ := mergeWithRoot_spec k hl qA1
        refine ⟨mA, qA2, ?_, ?_⟩
        · rw [mI, qI1, inorder_node, List.filter_append, List.filter_cons]
          rw [filter_all_true (fun x => decide (x < kp)) (inorder l) fun x hx => by
            simpa using lt_trans (hlk x hx) hkkp]
          simp [hkkp, List.append_assoc]
        · rw [qI2, inorder_node, List.filter_append, List.filter_cons]
          rw [filter_all_false (fun x => decide (kp < x)) (inorder l) fun x hx => by
            simp [not_lt_of_gt (lt_trans (hlk x hx) hkkp)]]
          simp [not_lt_of_gt hkkp]
      | false =>
        rw [if_neg (by simp)] at hk
        rw [if_neg (by simp)]
        have hkkp : kp < k := hlk kp (pathKey_mem hk)
        obtain ⟨qA1, qA2, qI1, qI2⟩ := ih hl hOl hk
        obtain ⟨mA, mI⟩ := mergeWithRoot_spec k qA2 hr
        refine ⟨qA1, mA, ?_, ?_⟩
        · rw [qI1, inorder_node, List.filter_append, List.filter_cons]
          rw [filter_all_false (fun x => decide (x < kp)) (inorder r) fun x hx => by
            simp [not_lt_of_gt (lt_trans hkkp (hkr x hx))]]
          simp [not_lt_of_gt hkkp]
        · rw [mI, qI2, inorder_node, List.filter_append, List.filter_cons]
          rw [filter_all_true (fun x => decide (kp < x)) (inorder r) fun x hx => by
            simpa using lt_trans hkkp (hkr x hx)]
          simp [hkkp, List.append_assoc]

theorem splitGo_preserves {t : Tree α} {p : List Bool} {g : Bool} {kp : α}
    (hA : Avl t) (hO : Ordered t) (hk : pathKey t p = some kp) :
    (Avl (splitGo t p g).1 ∧ Ordered (splitGo t p g).1) ∧
      (Avl (splitGo t p g).2 ∧ Ordered (splitGo t p g).2) := by
  obtain ⟨A1, A2, I1, I2⟩ := splitGo_spec hA hO hk
  have hf1 : List.Sorted (· < ·) ((inorder t).filter (fun x => decide (x < kp))) :=
    List.Pairwise.filter _ hO
  have hf2 : List.Sorted (· < ·) ((inorder t).filter (fun x => decide (kp < x))) :=
    List.Pairwise.filter _ hO
  refine ⟨⟨A1, ?_⟩, ⟨A2, ?_⟩⟩
  · rw [Ordered, I1]
    cases g with
    | true =>
      simp only [if_pos]
      refine List.pairwise_append.mpr ⟨hf1, List.pairwise_singleton _ _, ?_⟩
      intro a ha b hb
      rcases List.mem_singleton.mp hb with rfl
      have := (List.mem_filter.mp ha).2
      simpa using this
    | false =>
      simpa using hf1
  · rw [Ordered, I2]
    cases g with
    | true =>
      simpa using hf2
    | false =>
      simp only [Bool.false_eq_true, if_neg]
      refine List.pairwise_append.mpr ⟨List.pairwise_singleton _ _, hf2, ?_⟩
      intro a ha b hb
      rcases List.mem_singleton.mp ha with rfl
      have := (List.mem_filter.mp hb).2
      simpa using this

/-- The trees producible by the library starting from the empty tree: every
`Add`, every `Delete`, every `MergeWith` whose stated precondition holds, and
both results of every `Split` at a live node.  (A `Split` of an empty tree
returns the empty tree, and the argument tree left empty by `MergeWith` is
the empty tree — both already covered by `empty`.) -/
inductive Reachable : Tree α → Prop where
  | empty : Reachable nil
  | addStep (t : Tree α) (v : α) : Reachable t → Reachable (add t v).1
  | deleteStep (t : Tree α) (v : α) : Reachable t → Reachable (delete t v).1
  | mergeStep (t1 t2 : Tree α) : Reachable t1 → Reachable t2 →
      (∀ x ∈ inorder t1, ∀ y ∈ inorder t2, x < y) → Reachable (mergeWith t1 t2)
  | splitLeft (t : Tree α) (p : List Bool) (g : Bool) : Reachable t →
      isValidPath t p = true → Reachable (splitGo t p g).1
  | splitRight (t : Tree α) (p : List Bool) (g : Bool) : Reachable t →
      isValidPath t p = true → Reachable (splitGo t p g).2

/-! ## Order statistics -/

theorem size_eq_length (t : Tree α) : size t = (inorder t).length := by
  induction t with
  | nil => rfl
  | node l k h r ihl ihr =>
    simp only [size, inorder_node, List.length_append, List.length_cons, ihl, ihr]
    omega

theorem getNthSmallest_node (l : Tree α) (k : α) (h : Nat) (r : Tree α) (i : Nat) :
    getNthSmallest (node l k h r) i =
      if i ≥ size (node l k h r) then none
      else if i < size l then getNthSmallest l i
      else if i = size l then some k
      else getNthSmallest r (i - size l - 1) := rfl

theorem getNthSmallest_getElem (t : Tree α) (i : Nat) :
    getNthSmallest t i = (inorder t)[i]? := by
  induction t generalizing i with
  | nil => simp [getNthSmallest]
  | node l k h r ihl ihr =>
    rw [getNthSmallest_node]
    by_cases hge : i ≥ size (node l k h r)
    · rw [if_pos hge]
      rw [size_eq_length] at hge
      exact (List.getElem?_eq_none hge).symm
    · rw [if_neg hge]
      by_cases h1 : i < size l
      · rw [if_pos h1, ihl]
        rw [size_eq_length] at h1
        rw [inorder_node, List.getElem?_append, if_pos h1]
      · rw [if_neg h1]
        by_cases h2 : i = size l
        · rw [if_pos h2]
          subst h2
          rw [size_eq_length, inorder_node, List.getElem?_append,
            if_neg (lt_irrefl _)]
          simp
        · rw [if_neg h2]
          rw [ihr, inorder_node, List.getElem?_append,
            if_neg (by rw [← size_eq_length]; omega)]
          have hsub : i - (inorder l).length = (i - size l - 1) + 1 := by
            rw [← size_eq_length]
            omega
          rw [hsub]
          simp

/-! ## Trees built by concrete operation sequences -/

/-- A tree built by a sequence of `Add` calls starting from the empty tree. -/
def fromAdds (xs : List Int) : Tree Int :=
  xs.foldl (fun t v => (add t v).1) nil

theorem reachable_foldl_add (xs : List Int) :
    ∀ (t : Tree Int), Reachable t →
      Reachable (xs.foldl (fun t v => (add t v).1) t) := by
  induction xs with
  | nil => intro t ht; exact ht
  | cons a xs ih => intro t ht; exact ih _ (Reachable.addStep t a ht)

theorem reachable_fromAdds (xs : List Int) : Reachable (fromAdds xs) :=
  reachable_foldl_add xs nil Reachable.empty

/-! ## The claims -/

/-- C1: starting from an empty tree, after every sequence of Add, Delete,
MergeWith and Split operations (each call meeting its stated preconditions),
every node of every resulting tree satisfies the AVL balance condition
|height(left) − height(right)| ≤ 1, its stored height equals 1 + max of its
children's heights (0 for an absent child), and an in-order traversal yields
its keys in strictly ascending comparator order. -/
theorem c1_invariant_preservation {t : Tree α} (h : Reachable t) :
    Avl t ∧ Ordered t := by
  induction h with
  | empty => exact ⟨trivial, by simp [Ordered]⟩
  | addStep t v _ ih => exact add_preserves v ih.1 ih.2
  | deleteStep t v _ ih => exact delete_preserves v ih.1 ih.2
  | mergeStep t1 t2 _ _ hcross ih1 ih2 =>
    exact ⟨(mergeWith_spec ih1.1 ih2.1).1,
      mergeWith_ordered ih1.1 ih2.1 ih1.2 ih2.2 hcross⟩
  | splitLeft t p g _ hvalid ih =>
    obtain ⟨kp, hk⟩ := isValidPath_pathKey hvalid
    exact (splitGo_preserves ih.1 ih.2 hk).1
  | splitRight t p g _ hvalid ih =>
    obtain ⟨kp, hk⟩ := isValidPath_pathKey hvalid
    exact (splitGo_preserves ih.1 ih.2 hk).2

theorem c1_witness :
    Avl (delete (fromAdds [5,3,8,1,4,7,9,2,6]) 5).1 ∧
      Ordered (delete (fromAdds [5,3,8,1,4,7,9,2,6]) 5).1 :=
  c1_invariant_preservation
    (Reachable.deleteStep (fromAdds [5,3,8,1,4,7,9,2,6]) 5
      (reachable_fromAdds [5,3,8,1,4,7,9,2,6]))

/-- C3: for every non-empty tree and every live member node (a valid path to
the node holding `kp`), `Split(p, keyGoesLeft)` leaves in this tree exactly
the keys below `kp` and returns a tree holding exactly the keys above `kp`,
with `kp` itself going left iff `keyGoesLeft`. -/
theorem c3_split_partition {t : Tree α} {path : List Bool} {kp : α} (g : Bool)
    (hA : Avl t) (hO : Ordered t) (hk : pathKey t path = some kp) :
    split t (some path) g = Except.ok (splitGo t path g) ∧
    inorder (splitGo t path g).1 =
      (inorder t).filter (fun x => decide (x < kp)) ++ (if g then [kp] else []) ∧
    inorder (splitGo t path g).2 =
      (if g then [] else [kp]) ++ (inorder t).filter (fun x => decide (kp < x)) := by
  obtain ⟨_, _, I1, I2⟩ := splitGo_spec hA hO hk
  refine ⟨?_, I1, I2⟩
  cases t with
  | nil => simp [pathKey] at hk
  | node l k h r => rfl

theorem c3_witness :
    split (fromAdds [5,3,8,1,4,7,9,2,6]) (some []) false =
        Except.ok (splitGo (fromAdds [5,3,8,1,4,7,9,2,6]) [] false) ∧
      inorder (splitGo (fromAdds [5,3,8,1,4,7,9,2,6]) [] false).1 =
        (inorder (fromAdds [5,3,8,1,4,7,9,2,6])).filter (fun x => decide (x < 5)) ++
          (if false then [5] else []) ∧
      inorder (splitGo (fromAdds [5,3,8,1,4,7,9,2,6]) [] false).2 =
        (if false then [] else [5]) ++
          (inorder (fromAdds [5,3,8,1,4,7,9,2,6])).filter
            (fun x => decide ((5 : Int) < x)) :=
  c3_split_partition false (by decide) (by decide) (by decide)

/-- C4: for two trees with every key of the first below every key of the
second, `MergeWith` makes the first tree hold exactly the union (the
concatenation of the two in-order sequences, still ordered) and leaves the
second tree empty. -/
theorem c4_merge_union {t1 t2 : Tree α} (hA1 : Avl t1) (hA2 : Avl t2)
    (hO1 : Ordered t1) (hO2 : Ordered t2)
    (hlt : ∀ x ∈ inorder t1, ∀ y ∈ inorder t2, x < y) :
    inorder (mergeWithPair t1 t2).1 = inorder t1 ++ inorder t2 ∧
      Ordered (mergeWithPair t1 t2).1 ∧ (mergeWithPair t1 t2).2 = nil :=
  ⟨(mergeWith_spec hA1 hA2).2, mergeWith_ordered hA1 hA2 hO1 hO2 hlt, rfl⟩

theorem c4_witness :
    inorder (mergeWithPair (fromAdds [1,2,3]) (fromAdds [5,6,7,8])).1 =
        inorder (fromAdds [1,2,3]) ++ inorder (fromAdds [5,6,7,8]) ∧
      Ordered (mergeWithPair (fromAdds [1,2,3]) (fromAdds [5,6,7,8])).1 ∧
      (mergeWithPair (fromAdds [1,2,3]) (fromAdds [5,6,7,8])).2 = nil :=
  c4_merge_union (by decide) (by decide) (by decide) (by decide) (by decide)

/-- C5 counterexample: the claim says a null handle makes Split fail for
*every* tree; on the empty tree the source returns an empty tree before ever
examining the handle, so the call succeeds. -/
theorem c5_counterexample :
    split (nil : Tree Int) none false = Except.ok (nil, nil) := rfl

/-- C5 (amended): for every *non-empty* tree, calling Split with a null node
handle fails with an invalid-argument condition (the tree is not changed —
the failure happens before any mutation). -/
theorem c5_null_handle {t : Tree α} (h : t ≠ nil) (g : Bool) :
    split t none g = Except.error "Split: the p argument must be non-null" := by
  cases t with
  | nil => exact absurd rfl h
  | node l k hh r => rfl

theorem c5_witness :
    split (fromAdds [1,2]) none true =
      Except.error "Split: the p argument must be non-null" :=
  c5_null_handle (by decide) true

/-- C6: `Add(v)` returns false and leaves the tree unchanged when `v` is
present, and returns true and makes the key set the old key set plus `v`
when `v` is absent. -/
theorem c6_add_spec {t : Tree α} (v : α) (hO : Ordered t) :
    (v ∈ inorder t → add t v = (t, false)) ∧
    (v ∉ inorder t → (add t v).2 = true ∧
      ∀ x, x ∈ inorder (add t v).1 ↔ x ∈ inorder t ∨ x = v) := by
  constructor
  · intro hmem
    cases t with
    | nil => simp at hmem
    | node l k h r =>
      have hn : addGo (node l k h r) v = none :=
        (addGo_eq_none_iff hO (by intro hc; exact Tree.noConfusion hc)).mpr hmem
      simp [add, hn]
  · intro hmem
    cases t with
    | nil =>
      refine ⟨rfl, ?_⟩
      intro x
      simp [add]
    | node l k h r =>
      cases hmap : addGo (node l k h r) v with
      | none =>
        exact absurd
          ((addGo_eq_none_iff hO (by intro hc; exact Tree.noConfusion hc)).mp hmap) hmem
      | some t2 =>
        obtain ⟨L1, L2, hsplit, hins, _, _⟩ := addGo_inorder hO hmap
        refine ⟨by simp [add, hmap], ?_⟩
        intro x
        have h1 : (add (node l k h r) v).1 = t2 := by simp [add, hmap]
        rw [h1, hins, hsplit]
        simp only [List.mem_append, List.mem_cons]
        constructor
        · rintro (hx | rfl | hx)
          · exact Or.inl (Or.inl hx)
          · exact Or.inr rfl
          · exact Or.inl (Or.inr hx)
        · rintro ((hx | hx) | rfl)
          · exact Or.inl hx
          · exact Or.inr (Or.inr hx)
          · exact Or.inr (Or.inl rfl)

theorem c6_witness :
    Ordered (fromAdds [5,3,8,1,4,7,9,2,6]) ∧
    (((5 : Int) ∈ inorder (fromAdds [5,3,8,1,4,7,9,2,6]) →
        add (fromAdds [5,3,8,1,4,7,9,2,6]) 5 = (fromAdds [5,3,8,1,4,7,9,2,6], false)) ∧
      ((5 : Int) ∉ inorder (fromAdds [5,3,8,1,4,7,9,2,6]) →
        (add (fromAdds [5,3,8,1,4,7,9,2,6]) 5).2 = true ∧
        ∀ x, x ∈ inorder (add (fromAdds [5,3,8,1,4,7,9,2,6]) 5).1 ↔
          x ∈ inorder (fromAdds [5,3,8,1,4,7,9,2,6]) ∨ x = 5)) :=
  ⟨by decide, c6_add_spec 5 (by decide)⟩

/-- C7: `Delete(v)` returns false and leaves the tree unchanged when no node
holds `v`, and returns true and makes the key set the old key set minus `v`
when such a node exists. -/
theorem c7_delete_spec {t : Tree α} (v : α) (hO : Ordered t) :
    (v ∉ inorder t → delete t v = (t, false)) ∧
    (v ∈ inorder t → (delete t v).2 = true ∧
      ∀ x, x ∈ inorder (delete t v).1 ↔ x ∈ inorder t ∧ x ≠ v) := by
  constructor
  · intro hmem
    have hn : delGo t v = none := (delGo_eq_none_iff hO).mpr hmem
    simp [delete, hn]
  · intro hmem
    cases hmap : delGo t v with
    | none => exact absurd hmem ((delGo_eq_none_iff hO).mp hmap)
    | some t2 =>
      obtain ⟨L1, L2, h1, h2⟩ := delGo_some hO hmap
      have hS := hO
      rw [Ordered, h1] at hS
      have hb := sorted_middle_bounds hS
      refine ⟨by simp [delete, hmap], ?_⟩
      intro x
      have hfst : (delete t v).1 = t2 := by simp [delete, hmap]
      rw [hfst, h2, h1]
      simp only [List.mem_append, List.mem_cons]
      constructor
      · rintro (hx | hx)
        · exact ⟨Or.inl hx, ne_of_lt (hb.1 x hx)⟩
        · exact ⟨Or.inr (Or.inr hx), ne_of_gt (hb.2 x hx)⟩
      · rintro ⟨hx | rfl | hx, hne⟩
        · exact Or.inl hx
        · exact absurd rfl hne
        · exact Or.inr hx

theorem c7_witness :
    Ordered (fromAdds [5,3,8,1,4,7,9,2,6]) ∧
    (((5 : Int) ∉ inorder (fromAdds [5,3,8,1,4,7,9,2,6]) →
        delete (fromAdds [5,3,8,1,4,7,9,2,6]) 5 = (fromAdds [5,3,8,1,4,7,9,2,6], false)) ∧
      ((5 : Int) ∈ inorder (fromAdds [5,3,8,1,4,7,9,2,6]) →
        (delete (fromAdds [5,3,8,1,4,7,9,2,6]) 5).2 = true ∧
        ∀ x, x ∈ inorder (delete (fromAdds [5,3,8,1,4,7,9,2,6]) 5).1 ↔
          x ∈ inorder (fromAdds [5,3,8,1,4,7,9,2,6]) ∧ x ≠ 5)) :=
  ⟨by decide, c7_delete_spec 5 (by decide)⟩

/-- C8: with the size augmentation, `GetNthSmallest(T, i)` returns the i-th
element (0-indexed) of the in-order traversal for `i < n` and fails with an
out-of-range condition exactly when `i ≥ n` (`n` the number of nodes,
including the empty tree). -/
theorem c8_nth_smallest (t : Tree α) (i : Nat) :
    size t = (inorder t).length ∧
    getNthSmallest t i = (inorder t)[i]? ∧
    (getNthSmallest t i = none ↔ size t ≤ i) := by
  refine ⟨size_eq_length t, getNthSmallest_getElem t i, ?_⟩
  rw [getNthSmallest_getElem, size_eq_length]
  exact List.getElem?_eq_none_iff

/-- C9: splitting at a live node with the pivot routed right, then merging a
singleton holding the pivot key into the left part and merging the right part
back, reproduces the original key set exactly. -/
theorem c9_split_merge_roundtrip {t : Tree α} {p : List Bool} {kp : α}
    (hA : Avl t) (hO : Ordered t) (hk : pathKey t p = some kp) :
    ∀ x, x ∈ inorder (mergeWith (mergeWith (splitGo t p false).1 (add nil kp).1)
        (splitGo t p false).2) ↔ x ∈ inorder t := by
  obtain ⟨A1, A2, I1, I2⟩ := @splitGo_spec α _ p t false kp hA hO hk
  have I1e : inorder (splitGo t p false).1 =
      (inorder t).filter (fun x => decide (x < kp)) := by
    rw [I1]; simp
  have I2e : inorder (splitGo t p false).2 =
      kp :: (inorder t).filter (fun x => decide (kp < x)) := by
    rw [I2]; exact rfl
  have hsingA : Avl ((add nil kp).1) :=
    avl_node_iff.mpr ⟨by simp, by simp, by simp, trivial, trivial⟩
  obtain ⟨mA1, mI1⟩ := mergeWith_spec A1 hsingA
  obtain ⟨mA2, mI2⟩ := mergeWith_spec mA1 A2
  intro x
  rw [mI2, mI1, I1e, I2e]
  have hkp := pathKey_mem hk
  have hsing : inorder ((add nil kp).1) = [kp] := rfl
  rw [hsing]
  simp only [List.mem_append, List.mem_filter, List.mem_singleton, List.mem_cons,
    List.not_mem_nil, or_false, decide_eq_true_eq]
  constructor
  · rintro ((⟨hx, _⟩ | rfl) | (rfl | ⟨hx, _⟩))
    · exact hx
    · exact hkp
    · exact hkp
    · exact hx
  · intro hx
    rcases lt_trichotomy x kp with hlt | rfl | hgt
    · exact Or.inl (Or.inl ⟨hx, hlt⟩)
    · exact Or.inl (Or.inr rfl)
    · exact Or.inr (Or.inr ⟨hx, hgt⟩)

theorem c9_witness :
    Avl (fromAdds [5,3,8,1,4,7,9,2,6]) ∧
    Ordered (fromAdds [5,3,8,1,4,7,9,2,6]) ∧
    pathKey (fromAdds [5,3,8,1,4,7,9,2,6]) [] = some 5 ∧
    ∀ x, x ∈ inorder (mergeWith
        (mergeWith (splitGo (fromAdds [5,3,8,1,4,7,9,2,6]) [] false).1 (add nil 5).1)
        (splitGo (fromAdds [5,3,8,1,4,7,9,2,6]) [] false).2) ↔
      x ∈ inorder (fromAdds [5,3,8,1,4,7,9,2,6]) :=
  ⟨by decide, by decide, by decide,
    c9_split_merge_roundtrip (by decide) (by decide) (by decide)⟩

/-- C10: splitting an empty tree never fails, whatever the handle argument
(null included): the empty-tree check precedes the null-handle check, the
tree stays empty and an empty tree is returned. -/
theorem c10_split_empty (p : Option (List Bool)) (g : Bool) :
    split (nil : Tree α) p g = Except.ok (nil, nil) := rfl

/-- C2 (code bug): with the sum augmentation as written (`sum += p1->key`,
adding the children's *keys* instead of their subtree sums — `SumNodeBaseType`
has no member `key` at all), `GetRangeSum` returns a wrong value as soon as
the whole-subtree shortcut fires on a subtree of height three: on the tree
built by adding 1..20 in order, `GetRangeSum(T, 0, 16)` yields 88 while the
keys in [0, 16] sum to 136; the root's stored sum is 28 while the true
subtree sum is 210. -/
theorem c2_range_sum_mismatch :
    getRangeSum (fromAdds [1,2,3,4,5,6,7,8,9,10,11,12,13,14,15,16,17,18,19,20])
        0 16 = 88 ∧
    ((inorder (fromAdds [1,2,3,4,5,6,7,8,9,10,11,12,13,14,15,16,17,18,19,20])).filter
        (fun x => decide (0 ≤ x) && decide (x ≤ 16))).sum = 136 ∧
    sumField (fromAdds [1,2,3,4,5,6,7,8,9,10,11,12,13,14,15,16,17,18,19,20]) = 28 ∧
    subtreeSum (fromAdds [1,2,3,4,5,6,7,8,9,10,11,12,13,14,15,16,17,18,19,20]) = 210 ∧
    (88 : Int) ≠ 136 :=
  ⟨by decide, by decide, by decide, by decide, by decide⟩

end Tree

end AVLSpec
